import Mathlib

/-!
Verification of the KD-tree range-search engine of the NASP-Project
repository (src/KdTree.ts, src/scripts/benchmark.js).

Planar points are modelled as pairs of rationals (the domain is k = 2:
x, y in meters); coordinates of JavaScript numbers are embedded as exact
rationals so every operation of the code is executable and decidable.
Nullable node pointers (KDNode | null) are modelled by the constructor
KDTree.nil.
-/

namespace NASP

/-- A planar point: k = 2 real-valued coordinates (x, y) in meters,
modelled as rationals. -/
abbrev Point := ℚ × ℚ

/-- Coordinate access p[axis] for a planar point: axis 0 is x, axis 1 is y.
The code only ever calls this with axis = depth % 2. -/
def coord (p : Point) (axis : Nat) : ℚ :=
  if axis = 0 then p.1 else p.2

/-- The comparator (a, b) => a[axis] - b[axis] used by buildKDTree's sort,
as a boolean ascending-order relation. -/
def axisLe (axis : Nat) (a b : Point) : Bool :=
  decide (coord a axis ≤ coord b axis)

/-- KDNode of src/KdTree.ts: a point, the split axis, and two nullable
children; nil stands for the JavaScript null. -/
inductive KDTree where
  | nil : KDTree
  | node (point : Point) (axis : Nat) (left right : KDTree) : KDTree
deriving DecidableEq, Repr

/-- buildKDTree of src/KdTree.ts lines 16-26: empty input yields null;
otherwise sort a copy of the points by coordinate depth % k, put the
element at index floor(length / 2) in the node, and recurse on the
slices strictly before and strictly after that index at depth + 1.
List.mergeSort is a stable ascending sort, exactly like the JavaScript
sort with comparator (a, b) => a[axis] - b[axis]. The default value
given to getD is never used because the index is always in range. -/
def buildKDTree : List Point → Nat → KDTree
  | [], _ => .nil
  | p :: ps, depth =>
    let axis := depth % 2
    let sorted := (p :: ps).mergeSort (axisLe axis)
    let mid := sorted.length / 2
    KDTree.node (sorted.getD mid p) axis
      (buildKDTree (sorted.take mid) (depth + 1))
      (buildKDTree (sorted.drop (mid + 1)) (depth + 1))
termination_by l _ => l.length
decreasing_by
  all_goals
    simp only [List.length_take, List.length_drop, List.length_mergeSort,
      List.length_cons]
    omega

/-- distanceSquared of src/KdTree.ts lines 28-33, unrolled for k = 2:
the sum over both coordinates of the squared componentwise difference. -/
def distanceSquared (p1 p2 : Point) : ℚ :=
  (p1.1 - p2.1) * (p1.1 - p2.1) + (p1.2 - p2.2) * (p1.2 - p2.2)

/-- rangeSearch of src/KdTree.ts lines 36-61. The code accumulates the
matched KDNodes in the results array; we record each matched node's
point, which is the payload every caller reads. The node's stored axis
is ignored by the code, which recomputes axis = depth % k. -/
def rangeSearch (root : KDTree) (target : Point) (radiusMeters : ℚ)
    (depth : Nat) (results : List Point) : List Point :=
  match root with
  | .nil => results
  | .node pt _ left right =>
    let axis := depth % 2
    let r2 := radiusMeters * radiusMeters
    let results1 :=
      if distanceSquared target pt ≤ r2 then results ++ [pt] else results
    let diff := coord target axis - coord pt axis
    let results2 :=
      if diff < 0 then rangeSearch left target radiusMeters (depth + 1) results1
      else rangeSearch right target radiusMeters (depth + 1) results1
    if |diff| ≤ radiusMeters then
      if diff < 0 then rangeSearch right target radiusMeters (depth + 1) results2
      else rangeSearch left target radiusMeters (depth + 1) results2
    else results2

/-- Points stored in a tree, in-order. -/
def KDTree.toList : KDTree → List Point
  | .nil => []
  | .node pt _ l r => toList l ++ pt :: toList r

/-- Number of nodes of a tree. -/
def KDTree.size : KDTree → Nat
  | .nil => 0
  | .node _ _ l r => size l + size r + 1

/-- The spec's partition invariant (spec section 3): at a node at depth d
the stored split axis is d % k, every point of the left subtree has
coordinate d % k less than or equal to the node's, and every point of
the right subtree has coordinate d % k greater than or equal to it. -/
def TreeInv : KDTree → Nat → Prop
  | .nil, _ => True
  | .node pt ax l r, d =>
    ax = d % 2
    ∧ (∀ q ∈ l.toList, coord q (d % 2) ≤ coord pt (d % 2))
    ∧ (∀ q ∈ r.toList, coord pt (d % 2) ≤ coord q (d % 2))
    ∧ TreeInv l (d + 1) ∧ TreeInv r (d + 1)

/-- A point is within (Euclidean distance at most) radius r of the target:
expressed without square roots as 0 ≤ r together with squared distance
at most r squared. -/
def withinRadius (target p : Point) (r : ℚ) : Prop :=
  0 ≤ r ∧ distanceSquared target p ≤ r * r

instance (target p : Point) (r : ℚ) : Decidable (withinRadius target p r) := by
  unfold withinRadius; infer_instance

/-- Brute force range query: keep every input point within radius r of the
target, checking the Euclidean distance of each point in the list. -/
def bruteForce (points : List Point) (target : Point) (r : ℚ) : List Point :=
  points.filter (fun p => decide (withinRadius target p r))

/-- Matches produced by one rangeSearch traversal with an empty
accumulator: the node's point when its squared distance passes the test,
then the near side's matches, then the far side's matches when the
splitting plane is within the radius. -/
def rsList : KDTree → Point → ℚ → Nat → List Point
  | .nil, _, _, _ => []
  | .node pt _ l r, target, rad, d =>
    (if distanceSquared target pt ≤ rad * rad then [pt] else []) ++
    (if coord target (d % 2) - coord pt (d % 2) < 0 then
      rsList l target rad (d + 1) ++
        (if |coord target (d % 2) - coord pt (d % 2)| ≤ rad then
          rsList r target rad (d + 1) else [])
    else
      rsList r target rad (d + 1) ++
        (if |coord target (d % 2) - coord pt (d % 2)| ≤ rad then
          rsList l target rad (d + 1) else []))

/-! The map projection of src/scripts/benchmark.js. -/

noncomputable section

/-- Fixed Earth radius constant R = 6378137 of src/scripts/benchmark.js
line 11. -/
def earthRadius : ℝ := 6378137

/-- lonLatToMercator of src/scripts/benchmark.js lines 12-18: convert the
longitude and latitude from degrees to radians, scale the longitude
linearly by R, and map the latitude through log (tan (pi / 4 + phi / 2))
scaled by the same R. -/
def lonLatToMercator (lon lat : ℝ) : ℝ × ℝ :=
  let lam := lon * Real.pi / 180
  let phi := lat * Real.pi / 180
  (earthRadius * lam, earthRadius * Real.log (Real.tan (Real.pi / 4 + phi / 2)))

/-- Degrees to radians. -/
def radiansOfDegrees (deg : ℝ) : ℝ := deg * Real.pi / 180

/-- The projection formula as the spec states it (section 4.1 and claim
C9): (x, y) = (R lambda, R log (tan (pi / 4 + phi / 2))) where lambda and
phi are the longitude and latitude in radians and both coordinates are
scaled by the same fixed Earth radius constant. -/
def mercatorSpecFormula (lon lat : ℝ) : ℝ × ℝ :=
  (earthRadius * radiansOfDegrees lon,
    earthRadius * Real.log (Real.tan (Real.pi / 4 + radiansOfDegrees lat / 2)))

end

/-! Basic facts about the comparator and the build recursion. -/

theorem axisLe_trans (ax : Nat) (a b c : Point)
    (hab : axisLe ax a b) (hbc : axisLe ax b c) : axisLe ax a c := by
  simp only [axisLe, decide_eq_true_eq] at *
  exact le_trans hab hbc

theorem axisLe_total (ax : Nat) (a b : Point) : axisLe ax a b || axisLe ax b a := by
  simp only [axisLe, Bool.or_eq_true, decide_eq_true_eq]
  exact le_total (coord a ax) (coord b ax)

/-- Unfolding equation of buildKDTree on a non-empty list. -/
theorem buildKDTree_cons (p : Point) (ps : List Point) (depth : Nat) :
    buildKDTree (p :: ps) depth =
      KDTree.node
        (((p :: ps).mergeSort (axisLe (depth % 2))).getD
          ((p :: ps).length / 2) p)
        (depth % 2)
        (buildKDTree (((p :: ps).mergeSort (axisLe (depth % 2))).take
          ((p :: ps).length / 2)) (depth + 1))
        (buildKDTree (((p :: ps).mergeSort (axisLe (depth % 2))).drop
          ((p :: ps).length / 2 + 1)) (depth + 1)) := by
  rw [buildKDTree]
  simp only [List.length_mergeSort]

/-- The sorted list of a non-empty input splits around its middle index as
take mid, the middle element, then drop (mid + 1). -/
theorem sorted_split (l : List Point) (mid : Nat) (h : mid < l.length) :
    l = l.take mid ++ l[mid] :: l.drop (mid + 1) := by
  conv_lhs => rw [(List.take_append_drop mid l).symm]
  rw [List.drop_eq_getElem_cons h]

theorem getD_eq_getElem_of_lt (l : List Point) (d : Point) (n : Nat)
    (h : n < l.length) : l.getD n d = l[n] := by
  simp [List.getD_eq_getElem?_getD, List.getElem?_eq_getElem h]

/-- The points stored in the built tree are a permutation of the input:
every input point occupies exactly one node. -/
theorem toList_buildKDTree (ps : List Point) (depth : Nat) :
    (buildKDTree ps depth).toList.Perm ps := by
  generalize hn : ps.length = n
  induction n using Nat.strong_induction_on generalizing ps depth with
  | _ n ih =>
    match ps with
    | [] => simp [buildKDTree, KDTree.toList]
    | p :: ps =>
      rw [buildKDTree_cons]
      have hlen : ((p :: ps).mergeSort (axisLe (depth % 2))).length = n := by
        rw [List.length_mergeSort]; exact hn
      have hmid : (p :: ps).length / 2 < ((p :: ps).mergeSort (axisLe (depth % 2))).length := by
        rw [List.length_mergeSort]
        exact Nat.div_lt_self (by simp) (by omega)
      set sorted := (p :: ps).mergeSort (axisLe (depth % 2)) with hs
      set mid := (p :: ps).length / 2 with hm
      have h1 : (buildKDTree (sorted.take mid) (depth + 1)).toList.Perm (sorted.take mid) := by
        apply ih (sorted.take mid).length _ _ _ rfl
        rw [List.length_take, hlen]
        have : mid < n := by rw [hlen] at hmid; exact hmid
        omega
      have h2 : (buildKDTree (sorted.drop (mid + 1)) (depth + 1)).toList.Perm
          (sorted.drop (mid + 1)) := by
        apply ih (sorted.drop (mid + 1)).length _ _ _ rfl
        rw [List.length_drop, hlen]
        have hn0 : 0 < n := by omega
        have : mid < n := by rw [hlen] at hmid; exact hmid
        omega
      rw [getD_eq_getElem_of_lt sorted p mid hmid]
      simp only [KDTree.toList]
      have hstep : List.Perm
          ((buildKDTree (sorted.take mid) (depth + 1)).toList ++
            sorted[mid] :: (buildKDTree (sorted.drop (mid + 1)) (depth + 1)).toList)
          (sorted.take mid ++ sorted[mid] :: sorted.drop (mid + 1)) :=
        List.Perm.append h1 (List.Perm.cons _ h2)
      refine hstep.trans ?_
      rw [(sorted_split sorted mid hmid).symm]
      exact List.mergeSort_perm (p :: ps) (axisLe (depth % 2))

/-- Size of a tree is the length of its point list. -/
theorem size_eq_length_toList (t : KDTree) : t.size = t.toList.length := by
  induction t with
  | nil => simp [KDTree.size, KDTree.toList]
  | node pt ax l r ihl ihr =>
    simp [KDTree.size, KDTree.toList, ihl, ihr]
    omega

/-- The built tree has exactly one node per input point. -/
theorem size_buildKDTree (ps : List Point) (depth : Nat) :
    (buildKDTree ps depth).size = ps.length := by
  rw [size_eq_length_toList]
  exact (toList_buildKDTree ps depth).length_eq

/-! The partition invariant of the built tree. -/

/-- Pairwise sortedness of the mergeSort output under the axis comparator. -/
theorem pairwise_mergeSort_axisLe (l : List Point) (ax : Nat) :
    (l.mergeSort (axisLe ax)).Pairwise (fun a b => axisLe ax a b) :=
  List.sorted_mergeSort (axisLe_trans ax) (axisLe_total ax) l

/-- Every element of the left slice of the sorted list is bounded above on
the split axis by the middle element, and every element of the right slice
is bounded below by it. -/
theorem sorted_slices_bounds (l : List Point) (ax : Nat) (mid : Nat)
    (h : mid < (l.mergeSort (axisLe ax)).length) :
    (∀ q ∈ (l.mergeSort (axisLe ax)).take mid,
      coord q ax ≤ coord ((l.mergeSort (axisLe ax))[mid]) ax) ∧
    (∀ q ∈ (l.mergeSort (axisLe ax)).drop (mid + 1),
      coord ((l.mergeSort (axisLe ax))[mid]) ax ≤ coord q ax) := by
  have hp := pairwise_mergeSort_axisLe l ax
  set s := l.mergeSort (axisLe ax) with hs
  have hsplit := sorted_split s mid h
  rw [hsplit] at hp
  rw [List.pairwise_append] at hp
  obtain ⟨hp1, hp2, hcross⟩ := hp
  constructor
  · intro q hq
    have := hcross q hq s[mid] (List.mem_cons_self _ _)
    simpa [axisLe, decide_eq_true_eq] using this
  · intro q hq
    rw [List.pairwise_cons] at hp2
    have := hp2.1 q hq
    simpa [axisLe, decide_eq_true_eq] using this

/-- Partition invariant of buildKDTree (spec section 3): at every node at
depth d the split axis is d mod k, the left subtree's points have axis
coordinate at most the node's, the right subtree's at least the node's. -/
theorem treeInv_buildKDTree (ps : List Point) (depth : Nat) :
    TreeInv (buildKDTree ps depth) depth := by
  generalize hn : ps.length = n
  induction n using Nat.strong_induction_on generalizing ps depth with
  | _ n ih =>
    match ps with
    | [] => simp [buildKDTree, TreeInv]
    | p :: ps =>
      rw [buildKDTree_cons]
      have hlen : ((p :: ps).mergeSort (axisLe (depth % 2))).length = n := by
        rw [List.length_mergeSort]; exact hn
      have hmid : (p :: ps).length / 2 < ((p :: ps).mergeSort (axisLe (depth % 2))).length := by
        rw [List.length_mergeSort]
        exact Nat.div_lt_self (by simp) (by omega)
      set sorted := (p :: ps).mergeSort (axisLe (depth % 2)) with hs
      set mid := (p :: ps).length / 2 with hm
      have hmidn : mid < n := by rw [hlen] at hmid; exact hmid
      have hbounds := sorted_slices_bounds (p :: ps) (depth % 2) mid hmid
      rw [getD_eq_getElem_of_lt sorted p mid hmid]
      refine ⟨rfl, ?_, ?_, ?_, ?_⟩
      · intro q hq
        have hqmem : q ∈ sorted.take mid :=
          (toList_buildKDTree (sorted.take mid) (depth + 1)).mem_iff.mp hq
        exact hbounds.1 q hqmem
      · intro q hq
        have hqmem : q ∈ sorted.drop (mid + 1) :=
          (toList_buildKDTree (sorted.drop (mid + 1)) (depth + 1)).mem_iff.mp hq
        exact hbounds.2 q hqmem
      · apply ih (sorted.take mid).length _ _ _ rfl
        rw [List.length_take, hlen]
        omega
      · apply ih (sorted.drop (mid + 1)).length _ _ _ rfl
        rw [List.length_drop, hlen]
        omega

/-! Normal form of rangeSearch: the accumulator is threaded through
unchanged in front of the list of matches produced by the traversal. -/

/-- rangeSearch returns its accumulator followed by the traversal's
matches. -/
theorem rangeSearch_eq_rsList (target : Point) (rad : ℚ) :
    ∀ (t : KDTree) (d : Nat) (res : List Point),
      rangeSearch t target rad d res = res ++ rsList t target rad d := by
  intro t
  induction t with
  | nil =>
    intro d res
    simp [rangeSearch, rsList]
  | node pt ax l r ihl ihr =>
    intro d res
    simp only [rangeSearch, rsList]
    by_cases hm : distanceSquared target pt ≤ rad * rad <;>
      by_cases hd : coord target (d % 2) - coord pt (d % 2) < 0 <;>
        by_cases hc : |coord target (d % 2) - coord pt (d % 2)| ≤ rad <;>
          simp [hm, hd, hc, ihl, ihr, List.append_assoc]

/-- rangeSearch with an empty accumulator is exactly rsList. -/
theorem rangeSearch_nil_eq_rsList (t : KDTree) (target : Point) (rad : ℚ)
    (d : Nat) : rangeSearch t target rad d [] = rsList t target rad d := by
  simpa using rangeSearch_eq_rsList target rad t d []

/-! Soundness, counting and length bounds of the traversal. -/

/-- Soundness: every match is a stored point whose squared distance from
the target is at most the squared radius. -/
theorem rsList_sound (target : Point) (rad : ℚ) :
    ∀ (t : KDTree) (d : Nat) (p : Point), p ∈ rsList t target rad d →
      p ∈ t.toList ∧ distanceSquared target p ≤ rad * rad := by
  intro t
  induction t with
  | nil =>
    intro d p hp
    simp [rsList] at hp
  | node pt ax l r ihl ihr =>
    intro d p hp
    simp only [rsList, List.mem_append] at hp
    simp only [KDTree.toList, List.mem_append, List.mem_cons]
    rcases hp with hp | hp
    · rcases Decidable.em (distanceSquared target pt ≤ rad * rad) with hm | hm
      · simp only [if_pos hm, List.mem_singleton] at hp
        subst hp
        exact ⟨Or.inr (Or.inl rfl), hm⟩
      · simp [if_neg hm] at hp
    · rcases Decidable.em (coord target (d % 2) - coord pt (d % 2) < 0) with hd | hd
      · simp only [if_pos hd, List.mem_append] at hp
        rcases hp with hp | hp
        · obtain ⟨h1, h2⟩ := ihl (d + 1) p hp
          exact ⟨Or.inl h1, h2⟩
        · rcases Decidable.em (|coord target (d % 2) - coord pt (d % 2)| ≤ rad) with hc | hc
          · simp only [if_pos hc] at hp
            obtain ⟨h1, h2⟩ := ihr (d + 1) p hp
            exact ⟨Or.inr (Or.inr h1), h2⟩
          · simp [if_neg hc] at hp
      · simp only [if_neg hd, List.mem_append] at hp
        rcases hp with hp | hp
        · obtain ⟨h1, h2⟩ := ihr (d + 1) p hp
          exact ⟨Or.inr (Or.inr h1), h2⟩
        · rcases Decidable.em (|coord target (d % 2) - coord pt (d % 2)| ≤ rad) with hc | hc
          · simp only [if_pos hc] at hp
            obtain ⟨h1, h2⟩ := ihl (d + 1) p hp
            exact ⟨Or.inl h1, h2⟩
          · simp [if_neg hc] at hp

/-- Each stored point is matched at most as often as it occurs in the
tree. -/
theorem rsList_count_le (target : Point) (rad : ℚ) (p : Point) :
    ∀ (t : KDTree) (d : Nat),
      (rsList t target rad d).count p ≤ t.toList.count p := by
  intro t
  induction t with
  | nil => intro d; simp [rsList, KDTree.toList]
  | node pt ax l r ihl ihr =>
    intro d
    have hl := ihl (d + 1)
    have hr := ihr (d + 1)
    by_cases hm : distanceSquared target pt ≤ rad * rad <;>
      by_cases hd : coord target (d % 2) - coord pt (d % 2) < 0 <;>
        by_cases hc : |coord target (d % 2) - coord pt (d % 2)| ≤ rad <;>
          simp [rsList, KDTree.toList, hm, hd, hc, List.count_append,
            List.count_cons] <;>
          omega

/-- The traversal visits each node at most once, so the number of matches
is at most the number of nodes. -/
theorem rsList_length_le (target : Point) (rad : ℚ) :
    ∀ (t : KDTree) (d : Nat), (rsList t target rad d).length ≤ t.size := by
  intro t
  induction t with
  | nil => intro d; simp [rsList, KDTree.size]
  | node pt ax l r ihl ihr =>
    intro d
    have hl := ihl (d + 1)
    have hr := ihr (d + 1)
    by_cases hm : distanceSquared target pt ≤ rad * rad <;>
      by_cases hd : coord target (d % 2) - coord pt (d % 2) < 0 <;>
        by_cases hc : |coord target (d % 2) - coord pt (d % 2)| ≤ rad <;>
          simp [rsList, KDTree.size, hm, hd, hc, List.length_append] <;>
          omega

/-! Completeness: the pruning test never discards a point within the
radius. -/

/-- One squared coordinate difference is at most the squared Euclidean
distance. -/
theorem coord_sq_le_distanceSquared (target p : Point) (ax : Nat) :
    (coord target ax - coord p ax) * (coord target ax - coord p ax) ≤
      distanceSquared target p := by
  unfold coord distanceSquared
  split <;>
    nlinarith [mul_self_nonneg (target.1 - p.1), mul_self_nonneg (target.2 - p.2)]

theorem abs_le_of_mul_self_le (a b : ℚ) (hb : 0 ≤ b) (h : a * a ≤ b * b) :
    |a| ≤ b := by
  rcases abs_cases a with ⟨ha, _⟩ | ⟨ha, _⟩ <;> rw [ha] <;> nlinarith

/-- If the target-to-plane offset is dominated (in square) by the
target-to-point offset of a point within the radius, the splitting plane
is within the radius, so the far side is explored. -/
theorem plane_within_radius (target pt p : Point) (ax : Nat) (rad : ℚ)
    (hr : 0 ≤ rad) (hp : distanceSquared target p ≤ rad * rad)
    (hmono : (coord target ax - coord pt ax) * (coord target ax - coord pt ax) ≤
      (coord target ax - coord p ax) * (coord target ax - coord p ax)) :
    |coord target ax - coord pt ax| ≤ rad := by
  apply abs_le_of_mul_self_le _ _ hr
  calc (coord target ax - coord pt ax) * (coord target ax - coord pt ax)
      ≤ (coord target ax - coord p ax) * (coord target ax - coord p ax) := hmono
    _ ≤ distanceSquared target p := coord_sq_le_distanceSquared target p ax
    _ ≤ rad * rad := hp

/-- Completeness with multiplicity: under the partition invariant and a
nonnegative radius, a point whose squared distance from the target is at
most the squared radius is matched at least as often as it is stored. -/
theorem rsList_count_ge (target : Point) (rad : ℚ) (hr : 0 ≤ rad) (p : Point)
    (hp : distanceSquared target p ≤ rad * rad) :
    ∀ (t : KDTree) (d : Nat), TreeInv t d →
      t.toList.count p ≤ (rsList t target rad d).count p := by
  intro t
  induction t with
  | nil => intro d _; simp [rsList, KDTree.toList]
  | node pt ax l r ihl ihr =>
    intro d hinv
    obtain ⟨hax, hleft, hright, hinvl, hinvr⟩ := hinv
    have hl := ihl (d + 1) hinvl
    have hr2 := ihr (d + 1) hinvr
    have hptc : (if (pt == p) = true then 1 else 0) ≤
        List.count p (if distanceSquared target pt ≤ rad * rad then [pt] else []) := by
      by_cases hpe : pt = p
      · subst hpe
        simp [hp, List.count_cons]
      · simp [hpe, List.count_cons]
    by_cases hd : coord target (d % 2) - coord pt (d % 2) < 0 <;>
      by_cases hc : |coord target (d % 2) - coord pt (d % 2)| ≤ rad
    · simp only [rsList, KDTree.toList, hd, hc, if_true, ite_true,
        List.count_append, List.count_cons]
      omega
    · have hz : List.count p r.toList = 0 := by
        rw [List.count_eq_zero]
        intro hmem
        apply hc
        apply plane_within_radius target pt p (d % 2) rad hr hp
        have hb := hright p hmem
        nlinarith
      simp only [rsList, KDTree.toList, hd, hc, if_true, ite_true, if_false,
        ite_false, List.count_append, List.count_cons, List.count_nil]
      omega
    · simp only [rsList, KDTree.toList, hd, hc, if_true, ite_true, if_false,
        ite_false, List.count_append, List.count_cons]
      omega
    · have hz : List.count p l.toList = 0 := by
        rw [List.count_eq_zero]
        intro hmem
        apply hc
        apply plane_within_radius target pt p (d % 2) rad hr hp
        have hb := hleft p hmem
        have hd2 : 0 ≤ coord target (d % 2) - coord pt (d % 2) := by linarith [not_lt.mp hd]
        nlinarith
      simp only [rsList, KDTree.toList, hd, hc, if_true, ite_true, if_false,
        ite_false, List.count_append, List.count_cons, List.count_nil]
      omega

/-- The decidable rational membership test agrees with the real Euclidean
distance reading: a point is within radius r exactly when the square root
of its squared distance is at most r. -/
theorem withinRadius_iff_dist_le (target p : Point) (r : ℚ) :
    withinRadius target p r ↔
      Real.sqrt ((distanceSquared target p : ℚ) : ℝ) ≤ (r : ℝ) := by
  rw [Real.sqrt_le_iff, withinRadius, sq]
  constructor
  · rintro ⟨h1, h2⟩
    exact ⟨by exact_mod_cast h1, by exact_mod_cast h2⟩
  · rintro ⟨h1, h2⟩
    exact ⟨by exact_mod_cast h1, by exact_mod_cast h2⟩


/-! Claim theorems. -/

unseal List.mergeSort List.merge buildKDTree Nat.gcd Rat.mul Rat.add Rat.sub Rat.inv

/-- Permuted lists assign every point the same multiplicity. -/
theorem count_eq_of_perm (l1 l2 : List Point) (h : l1.Perm l2) (p : Point) :
    l1.count p = l2.count p := by
  induction h with
  | nil => rfl
  | cons x _ ih => simp [List.count_cons, ih]
  | swap x y l => simp [List.count_cons]; omega
  | trans _ _ ih1 ih2 => exact ih1.trans ih2

/-- Claim C1, counterexample to the claim as stated (which quantifies over
every radius): with radius -1 over the single point (0, 0) and target
(0, 0), rangeSearch compares the squared distance 0 against the squared
radius 1 and returns the point, while no point has Euclidean distance at
most -1, so the brute-force check returns nothing and the two sets
differ. -/
theorem rangeSearch_negative_radius_cex :
    rangeSearch (buildKDTree [((0 : ℚ), 0)] 0) (0, 0) (-1) 0 [] = [((0 : ℚ), 0)]
      ∧ bruteForce [((0 : ℚ), 0)] (0, 0) (-1) = [] := by
  exact ⟨by decide, by decide⟩

/-- Claim C1 (amended: for every nonnegative radius): the set of points
returned by rangeSearch over the tree built by buildKDTree from the input
list equals the set obtained by checking the Euclidean distance of every
input point against the radius — pruning never discards a point within
the radius, and every returned point is within the radius. -/
theorem rangeSearch_eq_bruteForce (points : List Point) (target : Point)
    (rad : ℚ) (hr : 0 ≤ rad) (p : Point) :
    p ∈ rangeSearch (buildKDTree points 0) target rad 0 [] ↔
      p ∈ bruteForce points target rad := by
  rw [rangeSearch_nil_eq_rsList]
  constructor
  · intro hp
    obtain ⟨hmem, hdist⟩ := rsList_sound target rad (buildKDTree points 0) 0 p hp
    have hmem2 : p ∈ points := (toList_buildKDTree points 0).mem_iff.mp hmem
    rw [bruteForce, List.mem_filter]
    refine ⟨hmem2, ?_⟩
    rw [decide_eq_true_eq]
    exact ⟨hr, hdist⟩
  · intro hp
    rw [bruteForce, List.mem_filter] at hp
    obtain ⟨hmem, hw⟩ := hp
    rw [decide_eq_true_eq] at hw
    have hc1 : (buildKDTree points 0).toList.count p = points.count p :=
      count_eq_of_perm _ _ (toList_buildKDTree points 0) p
    have hc2 := rsList_count_ge target rad hr p hw.2 (buildKDTree points 0) 0
      (treeInv_buildKDTree points 0)
    have hpos : 0 < points.count p := List.count_pos_iff.mpr hmem
    have hpos2 : 0 < (rsList (buildKDTree points 0) target rad 0).count p := by
      omega
    exact List.count_pos_iff.mp hpos2

/-- Witness for the amended claim C1 at a concrete input. -/
theorem rangeSearch_eq_bruteForce_witness :
    ((0 : ℚ), (0 : ℚ)) ∈ rangeSearch (buildKDTree [((0 : ℚ), 0), (3, 4)] 0) (0, 0) 5 0 [] ↔
      ((0 : ℚ), (0 : ℚ)) ∈ bruteForce [((0 : ℚ), 0), (3, 4)] (0, 0) 5 :=
  rangeSearch_eq_bruteForce [((0 : ℚ), 0), (3, 4)] (0, 0) 5 (by norm_num) ((0 : ℚ), (0 : ℚ))

/-- Claim C2: in the tree built by buildKDTree from any list of planar
points, at every node at depth d the split axis is a = d mod k (k = 2),
every point in the left subtree has coordinate a strictly less than or
tied with (that is, at most) the node's coordinate a, and every point in
the right subtree has coordinate a greater than or equal to it. -/
theorem kdtree_partition_invariant (points : List Point) :
    TreeInv (buildKDTree points 0) 0 :=
  treeInv_buildKDTree points 0

/-- Claim C3, counterexample: with a tree holding the single point (0, 0)
and target (0, 0), radius 0 returns that point (distance 0 satisfies the
inclusive squared test 0 <= 0), and radius -1 also returns it (the code
squares the radius before comparing), so neither a zero nor a negative
radius yields an empty match set. -/
theorem zero_radius_nonempty_cex :
    rangeSearch (buildKDTree [((0 : ℚ), 0)] 0) (0, 0) 0 0 [] = [((0 : ℚ), 0)]
      ∧ rangeSearch (buildKDTree [((0 : ℚ), 0)] 0) (0, 0) (-1) 0 [] = [((0 : ℚ), 0)] := by
  exact ⟨by decide, by decide⟩

/-- Claim C3 (amended): for every tree and target, with a zero or negative
radius r every point rangeSearch returns has squared distance at most
r * r (so lies within |r|), and the match set is empty whenever no stored
point passes that squared test; it is not always empty, as the
counterexample shows. -/
theorem nonpositive_radius_bounded (t : KDTree) (target : Point) (rad : ℚ)
    (_hr : rad ≤ 0) :
    (∀ p ∈ rangeSearch t target rad 0 [], distanceSquared target p ≤ rad * rad)
      ∧ ((∀ p ∈ t.toList, ¬ distanceSquared target p ≤ rad * rad) →
          rangeSearch t target rad 0 [] = []) := by
  rw [rangeSearch_nil_eq_rsList]
  refine ⟨fun p hp => (rsList_sound target rad t 0 p hp).2, fun hnone => ?_⟩
  rw [List.eq_nil_iff_forall_not_mem]
  intro p hp
  obtain ⟨hmem, hdist⟩ := rsList_sound target rad t 0 p hp
  exact hnone p hmem hdist

/-- Witness for the amended claim C3 at a concrete input. -/
theorem nonpositive_radius_bounded_witness :
    (∀ p ∈ rangeSearch (KDTree.node ((5 : ℚ), 5) 0 KDTree.nil KDTree.nil) (0, 0) (-1) 0 [],
        distanceSquared (0, 0) p ≤ (-1) * (-1))
      ∧ ((∀ p ∈ (KDTree.node ((5 : ℚ), 5) 0 KDTree.nil KDTree.nil).toList,
            ¬ distanceSquared (0, 0) p ≤ (-1) * (-1)) →
          rangeSearch (KDTree.node ((5 : ℚ), 5) 0 KDTree.nil KDTree.nil) (0, 0) (-1) 0 [] = []) :=
  nonpositive_radius_bounded (KDTree.node ((5 : ℚ), 5) 0 KDTree.nil KDTree.nil)
    (0, 0) (-1) (by norm_num)

/-- Claim C4: for every non-empty list and depth, buildKDTree sorts the
current subset by the axis coordinate (the sorted list is an ordered
permutation of the input), selects the element at index
floor(count / 2) — the lower median when count is even — as the node's
point, and builds the left and right subtrees from exactly the elements
at indices before, respectively after, that index, at depth + 1. -/
theorem buildKDTree_median_split (p : Point) (ps : List Point) (depth : Nat) :
    ((p :: ps).mergeSort (axisLe (depth % 2))).Perm (p :: ps)
      ∧ ((p :: ps).mergeSort (axisLe (depth % 2))).Pairwise
          (fun a b => coord a (depth % 2) ≤ coord b (depth % 2))
      ∧ buildKDTree (p :: ps) depth =
          KDTree.node
            (((p :: ps).mergeSort (axisLe (depth % 2))).getD ((p :: ps).length / 2) p)
            (depth % 2)
            (buildKDTree (((p :: ps).mergeSort (axisLe (depth % 2))).take
              ((p :: ps).length / 2)) (depth + 1))
            (buildKDTree (((p :: ps).mergeSort (axisLe (depth % 2))).drop
              ((p :: ps).length / 2 + 1)) (depth + 1)) := by
  refine ⟨List.mergeSort_perm _ _, ?_, buildKDTree_cons p ps depth⟩
  have hp := pairwise_mergeSort_axisLe (p :: ps) (depth % 2)
  exact hp.imp (fun h => by simpa [axisLe, decide_eq_true_eq] using h)

/-- Claim C5: over the three planar points (0,0), (10,0), (0,10) with
query center (0,0), radius 10.0001 matches all three points (the set
returned is a permutation of the input, with the boundary point (10, 0)
included), radius 9.9 matches only (0, 0), and the membership test is
inclusive: (10, 0), whose distance from the target is exactly 10, is
matched at radius 10. -/
theorem scenario_three_points :
    (rangeSearch (buildKDTree [((0 : ℚ), 0), (10, 0), (0, 10)] 0) (0, 0)
        (100001 / 10000) 0 []).Perm [((0 : ℚ), 0), (10, 0), (0, 10)]
      ∧ rangeSearch (buildKDTree [((0 : ℚ), 0), (10, 0), (0, 10)] 0) (0, 0)
          (99 / 10) 0 [] = [((0 : ℚ), 0)]
      ∧ ((10 : ℚ), (0 : ℚ)) ∈ rangeSearch (buildKDTree [((0 : ℚ), 0), (10, 0), (0, 10)] 0)
          (0, 0) 10 0 []
      ∧ distanceSquared (0, 0) ((10 : ℚ), (0 : ℚ)) = 10 * 10 := by
  refine ⟨?_, by decide, by decide, by decide⟩
  decide

/-- Claim C6: building a tree from the empty list yields the absent tree
(null), not an error, and rangeSearch on an absent tree returns the empty
match set for every target, radius and depth. -/
theorem empty_build_and_query (depth d : Nat) (target : Point) (rad : ℚ) :
    buildKDTree [] depth = KDTree.nil
      ∧ rangeSearch KDTree.nil target rad d [] = [] :=
  ⟨rfl, rfl⟩

/-- Claim C7: the multiset of points stored in the nodes of the built tree
equals the multiset of input points — each input point occupies exactly
one node, so the tree has as many nodes as input points — and duplicated
input points are matched independently: for a nonnegative radius, a
point within the radius is returned once per input occurrence. -/
theorem build_preserves_multiset (points : List Point) (depth : Nat) :
    (buildKDTree points depth).toList.Perm points
      ∧ (buildKDTree points depth).size = points.length
      ∧ (∀ (target p : Point) (rad : ℚ), 0 ≤ rad →
          distanceSquared target p ≤ rad * rad →
          (rangeSearch (buildKDTree points 0) target rad 0 []).count p =
            points.count p) := by
  refine ⟨toList_buildKDTree points depth, size_buildKDTree points depth, ?_⟩
  intro target p rad hr hp
  rw [rangeSearch_nil_eq_rsList]
  have h1 := rsList_count_le target rad p (buildKDTree points 0) 0
  have h2 := rsList_count_ge target rad hr p hp (buildKDTree points 0) 0
    (treeInv_buildKDTree points 0)
  have h3 : (buildKDTree points 0).toList.count p = points.count p :=
    count_eq_of_perm _ _ (toList_buildKDTree points 0) p
  omega

/-- Witness for claim C7 at a concrete input: the duplicated point (0, 0)
is matched twice. -/
theorem build_preserves_multiset_witness :
    (rangeSearch (buildKDTree [((0 : ℚ), 0), (0, 0)] 0) (0, 0) 1 0 []).count
      ((0 : ℚ), (0 : ℚ)) = 2 := by
  rw [(build_preserves_multiset [((0 : ℚ), 0), (0, 0)] 0).2.2 (0, 0)
    ((0 : ℚ), (0 : ℚ)) 1 (by norm_num) (by decide)]
  decide

/-- Claim C9: the projection is the pure function taking (lon, lat) in
degrees to (R lambda, R log (tan (pi / 4 + phi / 2))) where lambda and
phi are the longitude and latitude converted to radians and both
coordinates are scaled by the same fixed Earth radius constant. -/
theorem lonLatToMercator_eq_specFormula (lon lat : ℝ) :
    lonLatToMercator lon lat = mercatorSpecFormula lon lat := rfl

/-- Claim C10: buildKDTree terminates on every finite list (it is a total
function, accepted by a well-founded recursion on strictly shorter
slices, and consumes each input point into exactly one node), and
rangeSearch terminates on every finite tree (it is a total structural
recursion descending to child nodes, and adds at most one match per
node to its accumulator). -/
theorem build_and_search_terminate :
    (∀ (points : List Point) (depth : Nat),
        (buildKDTree points depth).size = points.length)
      ∧ (∀ (t : KDTree) (target : Point) (rad : ℚ) (d : Nat) (res : List Point),
          (rangeSearch t target rad d res).length ≤ res.length + t.size) := by
  refine ⟨size_buildKDTree, ?_⟩
  intro t target rad d res
  rw [rangeSearch_eq_rsList, List.length_append]
  have h := rsList_length_le target rad t d
  omega

end NASP
